import Mathlib

/-!
Verification of the IncludeCleaner repository (src/main.py) against its
natural-language specification.

The single source file defines class `IncludeCleaner` with methods
`extract_includes`, `remove_include`, `restore_include`, `compile_project`
and `clean_includes`.  File contents are modelled as `List Char`.  The two
regex operations

  re.findall(r'^\s*#include\s*[<"](.+?)[>"]', content, re.MULTILINE)
  re.sub(fr'^\s*#include\s*[<"]({re.escape(h)})[>"].*\n?', '', content,
         flags=re.MULTILINE)

are embedded as executable character-list scanners implementing exactly the
Python `re` semantics for these fixed patterns: `^` matches at the string
start and after each newline (MULTILINE), `\s*` is a greedy run of
whitespace characters (which includes newlines, so a match may start at the
line start of a preceding run of blank lines), `(.+?)` is a lazy non-empty
run of non-newline characters, `[<"]`/`[>"]` are single-character classes,
`.*` greedily takes the remainder of the line, and `\n?` optionally takes
the newline.  Because each part of these patterns is followed by a
character that the part itself can never match, the backtracking search is
deterministic and the scanners below compute the unique match.
`re.findall` / `re.sub` scan left to right, resuming after each
(non-overlapping) match.

The build oracle (`compile_project` composed with the mutated tree) is
modelled per processed file as a boolean function of that file's current
content, the rest of the tree being fixed during the file's processing.
-/

/-- Python regex `\s` for `str` patterns: the exact set of code points the
`re` module's `\s` matches — tab, newline, vertical tab, form feed,
carriage return, the ASCII information separators U+001C..U+001F, space,
next line U+0085, no-break space U+00A0, ogham space mark U+1680, the
Unicode spaces U+2000..U+200A, line separator U+2028, paragraph separator
U+2029, narrow no-break space U+202F, medium mathematical space U+205F and
ideographic space U+3000. -/
def isWs (c : Char) : Bool :=
  decide ((0x9 ≤ c.toNat ∧ c.toNat ≤ 0xd) ∨ (0x1c ≤ c.toNat ∧ c.toNat ≤ 0x20) ∨
    c.toNat = 0x85 ∨ c.toNat = 0xa0 ∨ c.toNat = 0x1680 ∨
    (0x2000 ≤ c.toNat ∧ c.toNat ≤ 0x200a) ∨ c.toNat = 0x2028 ∨
    c.toNat = 0x2029 ∨ c.toNat = 0x202f ∨ c.toNat = 0x205f ∨ c.toNat = 0x3000)

/-- The literal `#include` of both regexes. -/
def includeKW : List Char := ['#', 'i', 'n', 'c', 'l', 'u', 'd', 'e']

/-- Consume a literal prefix (regex literal / `re.escape`d text): returns
the remainder when `s` starts with `p`, and `none` otherwise. -/
def chop : List Char → List Char → Option (List Char)
  | [], s => some s
  | _ :: _, [] => none
  | p :: ps, c :: cs => if c = p then chop ps cs else none

/-- Lazy group `(.+?)` followed by `[>"]`: starting with the already-taken
group `acc` (reversed), extend one character at a time until the next
character is a closing delimiter.  `.` cannot match a newline, so hitting a
newline before a delimiter fails.  Returns the group and the remainder
after the closing delimiter. -/
def grabHeader (acc : List Char) : List Char → Option (List Char × List Char)
  | [] => none
  | c :: rest =>
    if c = '>' ∨ c = '"' then some (acc.reverse, rest)
    else if c = '\n' then none
    else grabHeader (c :: acc) rest

/-- Attempt of `\s*#include\s*[<"](.+?)[>"]` at a position where `^` holds
(used by `extract_includes`).  Returns the captured header name and the
remainder after the full match. -/
def matchIncludeAt (s : List Char) : Option (List Char × List Char) :=
  match chop includeKW (s.dropWhile isWs) with
  | none => none
  | some s2 =>
    match s2.dropWhile isWs with
    | [] => none
    | d :: s3 =>
      if d = '<' ∨ d = '"' then
        match s3 with
        | [] => none
        | c0 :: s4 => if c0 = '\n' then none else grabHeader [c0] s4
      else none

/-- Left-to-right scan of `re.findall` under MULTILINE.  The `Nat` argument
counts characters still to be skipped because they were consumed by the
previous match; the `Bool` argument records whether the current position is
a line start (`^`).  A match resumes the scan right after its closing
delimiter, which is never a line start. -/
def extractScanA : Nat → Bool → List Char → List (List Char)
  | _, _, [] => []
  | n + 1, _, _ :: rest => extractScanA n false rest
  | 0, atStart, c :: rest =>
    if atStart then
      match matchIncludeAt (c :: rest) with
      | some (hname, rest2) =>
        hname :: extractScanA (rest.length - rest2.length) false rest
      | none => extractScanA 0 (c == '\n') rest
    else extractScanA 0 (c == '\n') rest

/-- `IncludeCleaner.extract_includes`:
`re.findall(r'^\s*#include\s*[<"](.+?)[>"]', content, re.MULTILINE)`. -/
def extract_includes (content : List Char) : List (List Char) :=
  extractScanA 0 true content

/-- Attempt of `\s*#include\s*[<"](H)[>"].*\n?` at a position where `^`
holds (used by `remove_include`).  Returns the remainder after the full
match. -/
def matchRemoveAt (H : List Char) (s : List Char) : Option (List Char) :=
  match chop includeKW (s.dropWhile isWs) with
  | none => none
  | some s2 =>
    match s2.dropWhile isWs with
    | [] => none
    | d :: s3 =>
      if d = '<' ∨ d = '"' then
        match chop H s3 with
        | none => none
        | some [] => none
        | some (cl :: s5) =>
          if cl = '>' ∨ cl = '"' then
            match s5.dropWhile (fun c => c != '\n') with
            | [] => some []
            | _ :: s6 => some s6
          else none
      else none

/-- Left-to-right scan of `re.sub(..., '', content)` under MULTILINE: copy
characters, delete each (non-overlapping) match.  A match ends either after
a newline (so the scan resumes at a line start) or at the end of the
string. -/
def subScanA (H : List Char) : Nat → Bool → List Char → List Char
  | _, _, [] => []
  | n + 1, _, _ :: rest => subScanA H n true rest
  | 0, atStart, c :: rest =>
    if atStart then
      match matchRemoveAt H (c :: rest) with
      | some rest2 => subScanA H (rest.length - rest2.length) true rest
      | none => c :: subScanA H 0 (c == '\n') rest
    else c :: subScanA H 0 (c == '\n') rest

/-- `IncludeCleaner.remove_include`: the `re.sub` with the escaped header
name, committed to disk and returned (in this model the returned content is
the on-disk content). -/
def remove_include (include_to_remove : List Char) (content : List Char) :
    List Char :=
  subScanA include_to_remove 0 true content

/-- `IncludeCleaner.restore_include`: overwrites the file with
`original_content`; the file's content becomes exactly that argument. -/
def restore_include (original_content : List Char) : List Char :=
  original_content

/-- Outcome of `subprocess.run(self.compile_script, shell=True, ...)`:
either the process completed with some return code, or the call raised an
exception (caught by the `except` clause of `compile_project`). -/
inductive RunResult where
  | completed (returncode : Int)
  | raised
  deriving DecidableEq

/-- `IncludeCleaner.compile_project`: `returncode == 0` on completion, and
`False` when the subprocess invocation raises. -/
def compile_project : RunResult → Bool
  | .completed rc => rc == 0
  | .raised => false

/-- Per-include decision reported by `clean_includes` (the
"Removed unnecessary include" / "Keep include" prints). -/
inductive Decision where
  | removed (hname : List Char)
  | kept (hname : List Char)
  deriving DecidableEq

/-- The inner `for include in includes:` loop of `clean_includes`.
`oracle` is the build verdict as a function of the processed file's current
content, `snapshot` is the `original_content` read before the loop, and the
last argument is the file's current content.  On success the removal
stays; on failure `restore_include(file_path, original_content)` rewrites
the pristine snapshot.  Returns the final content and the decision list. -/
def processIncludes (oracle : List Char → Bool) (snapshot : List Char) :
    List (List Char) → List Char → List Char × List Decision
  | [], c => (c, [])
  | h :: rest, c =>
    let c' := remove_include h c
    if oracle c' then
      let p := processIncludes oracle snapshot rest c'
      (p.1, .removed h :: p.2)
    else
      let p := processIncludes oracle snapshot rest (restore_include snapshot)
      (p.1, .kept h :: p.2)

/-- The body of `clean_includes` for one file: extract the include list,
read the pristine snapshot (`original_content`), then run the trial loop.
Both reads see the same pre-run content. -/
def clean_includes_file (oracle : List Char → Bool) (c0 : List Char) :
    List Char × List Decision :=
  processIncludes oracle c0 (extract_includes c0) c0

/-- One discovered file as `clean_includes` sees it: its readable content,
or a read failure (`open`/`read` raising `IOError` in `extract_includes` or
when taking the snapshot, both of which happen before any write to the
file). -/
inductive FileSrc where
  | ok (content : List Char)
  | readError
  deriving DecidableEq

/-- `IncludeCleaner.clean_includes` over the discovered file list.  There
is no try/except in the method, so a read error propagates out of the
`for file_path in source_files:` loop: the failing file and every later
file are left untouched and the run does not complete (the `Bool` is
`false`).  Returns the final per-file states, the concatenated decision
log, and whether the run ran to completion. -/
def clean_includes (oracle : List Char → Bool) :
    List FileSrc → List FileSrc × List Decision × Bool
  | [] => ([], [], true)
  | .readError :: rest => (.readError :: rest, [], false)
  | .ok c :: rest =>
    let p := clean_includes_file oracle c
    let r := clean_includes oracle rest
    (.ok p.1 :: r.1, p.2 ++ r.2.1, r.2.2)

/-- Splits content into lines, each line keeping its terminating newline
(the last line may lack one).  Used only by the spec-side model below. -/
def splitLines : List Char → List (List Char)
  | [] => []
  | c :: rest =>
    if c = '\n' then ['\n'] :: splitLines rest
    else
      match splitLines rest with
      | [] => [[c]]
      | l :: ls => (c :: l) :: ls

/-- Spec-side line recognizer, following the specification's words for
`removeInclude`: a line is deleted iff it is an include directive
(line-anchored, tolerating leading whitespace) whose header name textually
equals `headerName`, exactly. -/
def specLineMatches (H : List Char) (line : List Char) : Bool :=
  match chop includeKW (line.dropWhile isWs) with
  | none => false
  | some r =>
    match r.dropWhile isWs with
    | [] => false
    | d :: r2 =>
      (d == '<' || d == '"') &&
        match chop H r2 with
        | some (cl :: _) => cl == '>' || cl == '"'
        | _ => false

/-- Spec-side model of `removeInclude`, from the specification's words
(for comparison with `remove_include` above): delete exactly the lines of
the file that are include directives with header name equal to
`headerName`, keep every other line byte-identical. -/
def removeIncludeSpec (H content : List Char) : List Char :=
  ((splitLines content).filter (fun l => !specLineMatches H l)).flatten

/-- Shape of one source line for the refinement theorems: either an
arbitrary non-directive line, or an include directive made of leading
whitespace, `#include`, inner whitespace, an opening delimiter, a header
name, a closing delimiter and trailing text. -/
inductive LineSpec where
  | plain (cs : List Char)
  | directive (ws1 ws2 : List Char) (d : Char) (hname : List Char)
      (cl : Char) (tr : List Char)
  deriving DecidableEq

/-- The text of one `LineSpec` line, terminated by a newline. -/
def renderLine : LineSpec → List Char
  | .plain cs => cs ++ ['\n']
  | .directive ws1 ws2 d hname cl tr =>
      ws1 ++ includeKW ++ ws2 ++ (d :: (hname ++ (cl :: (tr ++ ['\n']))))

/-- The header name of a directive line, `none` for a plain line. -/
def headerOf : LineSpec → Option (List Char)
  | .plain _ => none
  | .directive _ _ _ hname _ _ => some hname

/-- A whole file built from lines. -/
def renderLines (ls : List LineSpec) : List Char := (ls.map renderLine).flatten

/-- Well-formedness of one line.  A plain line contains no newline, at
least one non-whitespace character (it is not a blank line), and does not
begin, after leading whitespace, with `#include`.  A directive line has
newline-free whitespace runs, a real opening and closing delimiter, and a
non-empty header name free of newlines and closing delimiters; its
trailing text stays on the line. -/
def wfLine : LineSpec → Bool
  | .plain cs =>
      cs.all (fun c => c != '\n') && cs.any (fun c => !isWs c) &&
        !(includeKW.isPrefixOf (cs.dropWhile isWs))
  | .directive ws1 ws2 d hname cl tr =>
      ws1.all (fun c => isWs c && c != '\n') &&
      ws2.all (fun c => isWs c && c != '\n') &&
      (d == '<' || d == '"') && !hname.isEmpty &&
      hname.all (fun c => c != '\n' && c != '>' && c != '"') &&
      (cl == '>' || cl == '"') && tr.all (fun c => c != '\n')

/-- Concrete file with two includes, used by the counterexample runs. -/
def fileAB : List Char := "#include <a.h>\n#include <b.h>\nm\n".toList

/-- Concrete file with one include, used by the counterexample runs. -/
def fileSingle : List Char := "#include <a.h>\nq\n".toList

/-- Concrete build oracle: the build succeeds iff the `b.h` include is
still present in the processed file. -/
def oracleNeedsB (c : List Char) : Bool :=
  (extract_includes c).contains ("b.h".toList)

/-- Concrete build oracle: the build succeeds iff at least one of the
`a.h` and `b.h` includes is still present (it fails only when both are
absent). -/
def oracleEitherAB (c : List Char) : Bool :=
  (extract_includes c).contains ("a.h".toList) ||
    (extract_includes c).contains ("b.h".toList)

/-- Concrete line list with both delimiter forms, leading whitespace,
trailing text and a repeated header name. -/
def demoLines : List LineSpec :=
  [ .directive [] [' '] '<' ("a.h".toList) '>' [],
    .plain ("int x;".toList),
    .directive [' '] [] '"' ("a.h".toList) '"' (" // dup".toList) ]

/-- Concrete content whose first line is blank and whose second line is an
include directive, exhibiting the whitespace-consuming behaviour of the
removal regex. -/
def fileBlankDir : List Char := "\n#include <x.h>\nint y;\n".toList

/-! ## Lemmas about the trial-removal loop -/

/-- When every oracle call fails, every trial is kept and the content,
which starts equal to the snapshot, is restored to the snapshot each
time. -/
theorem processIncludes_const_false (oracle : List Char → Bool)
    (hor : ∀ x, oracle x = false) (sn : List Char) :
    ∀ l : List (List Char), processIncludes oracle sn l sn = (sn, l.map .kept) := by
  intro l
  induction l with
  | nil => rfl
  | cons h rest ih => simp [processIncludes, hor, restore_include, ih]

/-- One decision is reported per tested include. -/
theorem processIncludes_length (oracle : List Char → Bool) (sn : List Char) :
    ∀ (l : List (List Char)) (c : List Char),
      (processIncludes oracle sn l c).2.length = l.length := by
  intro l
  induction l with
  | nil => intro c; rfl
  | cons h rest ih =>
    intro c
    cases ho : oracle (remove_include h c) <;>
      simp [processIncludes, ho, ih]

/-- If both the snapshot and the current content pass the oracle, the
content after the loop passes the oracle. -/
theorem processIncludes_oracle_true (oracle : List Char → Bool)
    (sn : List Char) (hsn : oracle sn = true) :
    ∀ (l : List (List Char)) (c : List Char), oracle c = true →
      oracle (processIncludes oracle sn l c).1 = true := by
  intro l
  induction l with
  | nil => intro c hc; exact hc
  | cons h rest ih =>
    intro c hc
    cases ho : oracle (remove_include h c) with
    | false =>
      simpa [processIncludes, ho, restore_include] using ih (restore_include sn) hsn
    | true =>
      simpa [processIncludes, ho] using ih (remove_include h c) ho

/-- The final decision list of the last tested include determines the
final content: when the loop's last decision is `kept`, the last executed
statement was `restore_include(file_path, original_content)`, so the final
content is the snapshot. -/
theorem processIncludes_last_kept (oracle : List Char → Bool)
    (sn : List Char) :
    ∀ (l : List (List Char)) (c hname : List Char),
      (processIncludes oracle sn l c).2.getLast? = some (.kept hname) →
      (processIncludes oracle sn l c).1 = sn := by
  intro l
  induction l with
  | nil => intro c hname h; simp [processIncludes] at h
  | cons hd rest ih =>
    intro c hname h
    cases ho : oracle (remove_include hd c) with
    | true =>
      simp only [processIncludes, ho, if_true] at h ⊢
      rcases hp : (processIncludes oracle sn rest (remove_include hd c)).2 with _ | ⟨q, qs⟩
      · rw [hp] at h
        simp at h
      · rw [hp] at h
        rw [List.getLast?_cons_cons] at h
        rw [← hp] at h
        exact ih (remove_include hd c) hname h
    | false =>
      simp only [processIncludes, ho, if_false, Bool.false_eq_true] at h ⊢
      rcases hp : (processIncludes oracle sn rest (restore_include sn)).2 with _ | ⟨q, qs⟩
      · have hlen := processIncludes_length oracle sn rest (restore_include sn)
        rw [hp] at hlen
        cases rest with
        | nil => simp [processIncludes, restore_include]
        | cons r rs => simp at hlen
      · rw [hp] at h
        rw [List.getLast?_cons_cons] at h
        rw [← hp] at h
        exact ih (restore_include sn) hname h

/-! ## Claim theorems -/

/-- C1: the claim is violated by the code.  With the two-include file
`fileAB` and an oracle that succeeds iff `b.h` is present, the trial on
`a.h` is accepted (reported `removed`), the trial on `b.h` fails, and the
failed trial's `restore_include` writes the pristine snapshot rather than
the snapshot with the accepted removal of `a.h` still applied: the final
content equals the pre-run original, not the original with the accepted
removal applied. -/
theorem clean_includes_restore_is_pristine :
    clean_includes_file oracleNeedsB fileAB
      = (fileAB, [Decision.removed ("a.h".toList), Decision.kept ("b.h".toList)])
    ∧ fileAB ≠ remove_include ("a.h".toList) fileAB := by
  exact ⟨by decide, by decide⟩

/-- C2: the claim is violated by the code.  With a file containing exactly
the includes `a.h` and `b.h` and an oracle that fails iff both are absent,
the run removes `a.h` (trial accepted), then fails the `b.h` trial and
restores the pristine snapshot, so the final content contains *both*
includes again — neither is removed, contradicting "exactly one of
them". -/
theorem clean_includes_two_includes_neither_removed :
    (clean_includes_file oracleEitherAB fileAB).2
      = [Decision.removed ("a.h".toList), Decision.kept ("b.h".toList)]
    ∧ (clean_includes_file oracleEitherAB fileAB).1 = fileAB
    ∧ extract_includes ((clean_includes_file oracleEitherAB fileAB).1)
      = ["a.h".toList, "b.h".toList] := by
  exact ⟨by decide, by decide, by decide⟩

/-- C4: the claim is violated by the code.  With the same oracle as C2,
the first run ends with the file back at its original content, and a
second run over that output again *accepts* the removal of `a.h` (its
trial passes verification), so the second run does not keep every
remaining include. -/
theorem clean_includes_second_run_removes_again :
    (clean_includes_file oracleEitherAB fileAB).1 = fileAB
    ∧ Decision.removed ("a.h".toList)
        ∈ (clean_includes_file oracleEitherAB
            ((clean_includes_file oracleEitherAB fileAB).1)).2 := by
  exact ⟨by decide, by decide⟩

/-- C5: the claim is violated by the code.  `clean_includes` has no
try/except, so a read error on the first discovered file propagates and
aborts the whole run: the second file is never processed (no decisions are
reported and it keeps its original content), although processing it would
have removed its include, as the second conjunct shows. -/
theorem clean_includes_read_error_aborts_run :
    clean_includes (fun _ => true) [FileSrc.readError, FileSrc.ok fileSingle]
      = ([FileSrc.readError, FileSrc.ok fileSingle], [], false)
    ∧ clean_includes_file (fun _ => true) fileSingle
      = ("q\n".toList, [Decision.removed ("a.h".toList)]) := by
  exact ⟨by decide, by decide⟩

/-- C6: `compile_project` returns `true` exactly when the spawned build
process terminates with exit status zero; a raised exception during the
launch yields `false` instead of a propagated error, so the function is
total over both outcomes. -/
theorem compile_project_true_iff_exit_zero (r : RunResult) :
    compile_project r = true ↔ r = RunResult.completed 0 := by
  cases r with
  | completed rc => simp [compile_project]
  | raised => simp [compile_project]

/-- C7: when the build command is unexecutable, every `subprocess.run`
invocation raises, so every oracle call returns `false`: every trial on
every discovered file resolves to `kept` and every file's final content is
byte-identical to its pre-run content; the run completes. -/
theorem clean_includes_unexecutable_build_is_noop (contents : List (List Char)) :
    clean_includes (fun _ => compile_project RunResult.raised)
        (contents.map FileSrc.ok)
      = (contents.map FileSrc.ok,
         (contents.map fun c => (extract_includes c).map Decision.kept).flatten,
         true) := by
  induction contents with
  | nil => rfl
  | cons c rest ih =>
    have hfile : clean_includes_file
        (fun _ => compile_project RunResult.raised) c
        = (c, (extract_includes c).map Decision.kept) := by
      unfold clean_includes_file
      exact processIncludes_const_false _ (fun _ => rfl) c (extract_includes c)
    simp [clean_includes, hfile, ih]

/-- C3: if the build oracle accepts the tree state just before the
Minimizer starts processing a file, it also accepts the tree state after
the file's processing finishes: every accepted trial was verified, and
every failed trial restores the snapshot, which the oracle accepted. -/
theorem clean_includes_preserves_build_success (oracle : List Char → Bool)
    (c0 : List Char) (h : oracle c0 = true) :
    oracle ((clean_includes_file oracle c0).1) = true :=
  processIncludes_oracle_true oracle c0 h (extract_includes c0) c0 h

/-- Witness for C3 at a concrete oracle and file. -/
theorem clean_includes_preserves_build_success_witness :
    oracleNeedsB fileAB = true
    ∧ oracleNeedsB ((clean_includes_file oracleNeedsB fileAB).1) = true :=
  ⟨by decide, clean_includes_preserves_build_success oracleNeedsB fileAB (by decide)⟩

/-- C10: every restore in `clean_includes` writes the single pristine
snapshot read before the file's first trial; hence whenever the decision
on the file's last tested include is `kept` (its trial failed build
verification), the file's final content is byte-identical to the pre-run
original, all earlier accepted removals having been undone by that last
restore. -/
theorem clean_includes_last_kept_restores_original (oracle : List Char → Bool)
    (c0 hname : List Char)
    (h : (clean_includes_file oracle c0).2.getLast? = some (Decision.kept hname)) :
    (clean_includes_file oracle c0).1 = c0 :=
  processIncludes_last_kept oracle c0 (extract_includes c0) c0 hname h

/-- Witness for C10 at a concrete oracle and file. -/
theorem clean_includes_last_kept_restores_original_witness :
    (clean_includes_file (fun _ => false) fileSingle).2.getLast?
      = some (Decision.kept ("a.h".toList))
    ∧ (clean_includes_file (fun _ => false) fileSingle).1 = fileSingle :=
  ⟨by decide,
   clean_includes_last_kept_restores_original (fun _ => false) fileSingle
     ("a.h".toList) (by decide)⟩

/-! ## Lemmas about the regex building blocks -/

/-- Consuming a literal that the input starts with succeeds and leaves the
rest. -/
theorem chop_append (t : List Char) : ∀ p : List Char, chop p (p ++ t) = some t := by
  intro p
  induction p with
  | nil => rfl
  | cons x ps ih => simpa [chop] using ih

/-- What `chop` leaves is a suffix of its input. -/
theorem chop_suffix : ∀ (p s t : List Char), chop p s = some t → t <:+ s := by
  intro p
  induction p with
  | nil => intro s t h; cases h; exact List.suffix_rfl
  | cons x ps ih =>
    intro s t h
    cases s with
    | nil => cases h
    | cons c cs =>
      by_cases hc : c = x
      · simp only [chop, hc, if_true] at h
        exact (ih cs t h).trans (List.suffix_cons c cs)
      · simp [chop, hc] at h

/-- `chop` consumes exactly the length of the literal. -/
theorem chop_length : ∀ (p s t : List Char), chop p s = some t →
    t.length + p.length = s.length := by
  intro p
  induction p with
  | nil => intro s t h; cases h; simp
  | cons x ps ih =>
    intro s t h
    cases s with
    | nil => cases h
    | cons c cs =>
      by_cases hc : c = x
      · simp only [chop, hc, if_true] at h
        have := ih cs t h
        simp [← this]; omega
      · simp [chop, hc] at h

/-- If the input's line does not begin with the literal, `chop` fails even
with later lines appended, provided the literal cannot span the newline. -/
theorem chop_line_none : ∀ (p a : List Char) (r : List Char),
    p.isPrefixOf a = false → '\n' ∉ p → chop p (a ++ '\n' :: r) = none := by
  intro p
  induction p with
  | nil => intro a r hpre _; simp [List.isPrefixOf] at hpre
  | cons x ps ih =>
    intro a r hpre hnl
    cases a with
    | nil =>
      have : ¬ ('\n' = x) := fun h => hnl (h ▸ List.mem_cons_self x ps)
      simp [chop, this]
    | cons y as =>
      by_cases hy : y = x
      · subst hy
        simp only [List.isPrefixOf, beq_self_eq_true, Bool.true_and] at hpre
        simp only [List.cons_append, chop, if_true]
        exact ih as r hpre (fun hmem => hnl (List.mem_cons_of_mem _ hmem))
      · simp [chop, hy]

/-- Dropping while a predicate holds skips a fully satisfying block. -/
theorem dropWhile_append_sat (p : Char → Bool) :
    ∀ (a b : List Char), (∀ c ∈ a, p c = true) →
      (a ++ b).dropWhile p = b.dropWhile p := by
  intro a
  induction a with
  | nil => intro b _; rfl
  | cons c cs ih =>
    intro b hall
    have hc : p c = true := hall c (List.mem_cons_self c cs)
    simp only [List.cons_append, List.dropWhile_cons, hc, if_true]
    exact ih b (fun x hx => hall x (List.mem_cons_of_mem c hx))

/-- Dropping while a predicate holds stops inside a block that contains a
failing character. -/
theorem dropWhile_append_stop (p : Char → Bool) :
    ∀ (a b : List Char), a.any (fun c => !p c) = true →
      (a ++ b).dropWhile p = a.dropWhile p ++ b ∧ a.dropWhile p ≠ [] := by
  intro a
  induction a with
  | nil => intro b h; simp at h
  | cons c cs ih =>
    intro b h
    by_cases hc : p c = true
    · have : cs.any (fun c => !p c) = true := by
        rcases List.any_eq_true.mp h with ⟨x, hx, hpx⟩
        rcases List.mem_cons.mp hx with hx | hx
        · subst hx; rw [hc] at hpx; cases hpx
        · exact List.any_eq_true.mpr ⟨x, hx, hpx⟩
      rcases ih b this with ⟨h1, h2⟩
      constructor
      · simp only [List.cons_append, List.dropWhile_cons, hc, if_true]
        exact h1
      · simpa [List.dropWhile_cons, hc] using h2
    · rw [Bool.not_eq_true] at hc
      constructor
      · simp [List.dropWhile_cons, hc]
      · simp [List.dropWhile_cons, hc]

/-- The lazy group scan: crossing a clean header block, it stops exactly at
the closing delimiter. -/
theorem grabHeader_spec :
    ∀ (hr acc : List Char) (cl : Char) (t : List Char),
      (∀ c ∈ hr, c ≠ '\n' ∧ c ≠ '>' ∧ c ≠ '"') → (cl = '>' ∨ cl = '"') →
      grabHeader acc (hr ++ cl :: t) = some (acc.reverse ++ hr, t) := by
  intro hr
  induction hr with
  | nil => intro acc cl t _ hcl; simp [grabHeader, hcl]
  | cons c hrest ih =>
    intro acc cl t hall hcl
    obtain ⟨hnl, hgt, hq⟩ := hall c (List.mem_cons_self c hrest)
    have hnotcl : ¬ (c = '>' ∨ c = '"') := by
      rintro (h | h) <;> [exact hgt h; exact hq h]
    have hstep : grabHeader acc ((c :: hrest) ++ cl :: t)
        = grabHeader (c :: acc) (hrest ++ cl :: t) := by
      simp [grabHeader, hnotcl, hnl]
    rw [hstep, ih (c :: acc) cl t (fun x hx => hall x (List.mem_cons_of_mem c hx)) hcl]
    simp

/-- What the lazy group scan leaves is a strictly shorter suffix. -/
theorem grabHeader_suffix :
    ∀ (t acc hn r : List Char), grabHeader acc t = some (hn, r) →
      r <:+ t ∧ r.length < t.length := by
  intro t
  induction t with
  | nil => intro acc hn r h; cases h
  | cons c rest ih =>
    intro acc hn r h
    by_cases hcl : c = '>' ∨ c = '"'
    · simp only [grabHeader, hcl, if_true, Option.some.injEq, Prod.mk.injEq] at h
      rcases h with ⟨_, rfl⟩
      exact ⟨List.suffix_cons c rest, by simp⟩
    · by_cases hnl : c = '\n'
      · simp [grabHeader, hcl, hnl] at h
      · simp only [grabHeader, hcl, if_false, hnl, ite_false] at h
        rcases ih (c :: acc) hn r h with ⟨h1, h2⟩
        exact ⟨h1.trans (List.suffix_cons c rest), Nat.lt_succ_of_lt h2⟩

/-! ## Lemmas about the two regex matchers -/

theorem isWs_hash : isWs '#' = false := by decide

theorem dropWhile_kw (X : List Char) :
    (includeKW ++ X).dropWhile isWs = includeKW ++ X := by
  rw [show includeKW ++ X = '#' :: ('i' :: 'n' :: 'c' :: 'l' :: 'u' :: 'd' :: 'e' :: X) from rfl,
      List.dropWhile_cons, isWs_hash]
  simp

theorem matchIncludeAt_directive (ws1 ws2 : List Char) (d : Char) (hname : List Char)
    (cl : Char) (tr r : List Char)
    (hws1 : ∀ c ∈ ws1, isWs c = true) (hws2 : ∀ c ∈ ws2, isWs c = true)
    (hd : d = '<' ∨ d = '"') (hne : hname ≠ [])
    (hh : ∀ c ∈ hname, c ≠ '\n' ∧ c ≠ '>' ∧ c ≠ '"')
    (hcl : cl = '>' ∨ cl = '"') :
    matchIncludeAt
        (ws1 ++ (includeKW ++ (ws2 ++ (d :: (hname ++ (cl :: (tr ++ ('\n' :: r))))))))
      = some (hname, tr ++ '\n' :: r) := by
  obtain ⟨h0, hs, rfl⟩ := List.exists_cons_of_ne_nil hne
  have hdws : isWs d = false := by rcases hd with rfl | rfl <;> decide
  obtain ⟨h0nl, h0gt, h0q⟩ := hh h0 (List.mem_cons_self h0 hs)
  have e1 : (ws1 ++ (includeKW ++ (ws2 ++ (d :: ((h0 :: hs) ++
        (cl :: (tr ++ ('\n' :: r)))))))).dropWhile isWs
      = includeKW ++ (ws2 ++ (d :: ((h0 :: hs) ++ (cl :: (tr ++ ('\n' :: r)))))) := by
    rw [dropWhile_append_sat isWs ws1 _ hws1, dropWhile_kw]
  have e2 : (ws2 ++ (d :: ((h0 :: hs) ++ (cl :: (tr ++ ('\n' :: r)))))).dropWhile isWs
      = d :: ((h0 :: hs) ++ (cl :: (tr ++ ('\n' :: r)))) := by
    rw [dropWhile_append_sat isWs ws2 _ hws2, List.dropWhile_cons, hdws]
    simp
  have e3 := grabHeader_spec hs [h0] cl (tr ++ '\n' :: r)
    (fun c hc => hh c (List.mem_cons_of_mem h0 hc)) hcl
  simp only [List.cons_append] at e1 e2
  simp only [List.reverse_cons, List.reverse_nil, List.nil_append,
    List.singleton_append] at e3
  simp only [matchIncludeAt, e1, chop_append, e2, eq_true hd, if_true,
    List.cons_append, eq_false h0nl, if_false, e3]

theorem chopKW_plain_none (cs r : List Char)
    (hany : cs.any (fun c => !isWs c) = true)
    (hpre : includeKW.isPrefixOf (cs.dropWhile isWs) = false) :
    chop includeKW ((cs ++ '\n' :: r).dropWhile isWs) = none := by
  rcases dropWhile_append_stop isWs cs ('\n' :: r) hany with ⟨h1, _⟩
  rw [h1]
  exact chop_line_none includeKW (cs.dropWhile isWs) r hpre (by decide)

theorem matchIncludeAt_plain_none (cs r : List Char)
    (hany : cs.any (fun c => !isWs c) = true)
    (hpre : includeKW.isPrefixOf (cs.dropWhile isWs) = false) :
    matchIncludeAt (cs ++ '\n' :: r) = none := by
  simp only [matchIncludeAt, chopKW_plain_none cs r hany hpre]

theorem matchRemoveAt_plain_none (H cs r : List Char)
    (hany : cs.any (fun c => !isWs c) = true)
    (hpre : includeKW.isPrefixOf (cs.dropWhile isWs) = false) :
    matchRemoveAt H (cs ++ '\n' :: r) = none := by
  simp only [matchRemoveAt, chopKW_plain_none cs r hany hpre]

theorem matchRemoveAt_directive_eq (ws1 ws2 : List Char) (d : Char) (H : List Char)
    (cl : Char) (tr r : List Char)
    (hws1 : ∀ c ∈ ws1, isWs c = true) (hws2 : ∀ c ∈ ws2, isWs c = true)
    (hd : d = '<' ∨ d = '"') (hcl : cl = '>' ∨ cl = '"')
    (htr : ∀ c ∈ tr, c ≠ '\n') :
    matchRemoveAt H
        (ws1 ++ (includeKW ++ (ws2 ++ (d :: (H ++ (cl :: (tr ++ ('\n' :: r))))))))
      = some r := by
  have hdws : isWs d = false := by rcases hd with rfl | rfl <;> decide
  have e1 : (ws1 ++ (includeKW ++ (ws2 ++ (d :: (H ++
        (cl :: (tr ++ ('\n' :: r)))))))).dropWhile isWs
      = includeKW ++ (ws2 ++ (d :: (H ++ (cl :: (tr ++ ('\n' :: r)))))) := by
    rw [dropWhile_append_sat isWs ws1 _ hws1, dropWhile_kw]
  have e2 : (ws2 ++ (d :: (H ++ (cl :: (tr ++ ('\n' :: r)))))).dropWhile isWs
      = d :: (H ++ (cl :: (tr ++ ('\n' :: r)))) := by
    rw [dropWhile_append_sat isWs ws2 _ hws2, List.dropWhile_cons, hdws]
    simp
  have e4 : (tr ++ ('\n' :: r)).dropWhile (fun c => c != '\n') = '\n' :: r := by
    rw [dropWhile_append_sat _ tr _ (fun c hc => by simp [htr c hc])]
    simp [List.dropWhile_cons]
  simp only [matchRemoveAt, e1, chop_append, e2, eq_true hd, if_true,
    eq_true hcl, e4]

theorem chop_ne_closer :
    ∀ (H hn : List Char) (cl : Char) (t u : List Char),
      (∀ c ∈ H, c ≠ '>' ∧ c ≠ '"') → (∀ c ∈ hn, c ≠ '>' ∧ c ≠ '"') →
      (cl = '>' ∨ cl = '"') → hn ≠ H →
      chop H (hn ++ cl :: t) = some u →
      ∃ x xs, u = x :: xs ∧ x ≠ '>' ∧ x ≠ '"' := by
  intro H
  induction H with
  | nil =>
    intro hn cl t u _ hhn _ hne hchop
    cases hn with
    | nil => exact absurd rfl hne
    | cons y ys =>
      refine ⟨y, ys ++ cl :: t, ?_, hhn y (List.mem_cons_self y ys)⟩
      simpa [chop] using hchop.symm
  | cons a Hs ih =>
    intro hn cl t u hH hhn hcl hne hchop
    cases hn with
    | nil =>
      have ha := hH a (List.mem_cons_self a Hs)
      have : ¬ (cl = a) := by
        rcases hcl with rfl | rfl
        · exact fun h => ha.1 h.symm
        · exact fun h => ha.2 h.symm
      simp [chop, this] at hchop
    | cons y ys =>
      by_cases hy : y = a
      · subst hy
        simp only [List.cons_append, chop, if_true] at hchop
        exact ih ys cl t u (fun c hc => hH c (List.mem_cons_of_mem y hc))
          (fun c hc => hhn c (List.mem_cons_of_mem y hc)) hcl
          (fun h => hne (by rw [h])) hchop
      · simp [chop, hy] at hchop

theorem matchRemoveAt_directive_ne (ws1 ws2 : List Char) (d : Char)
    (hname H : List Char) (cl : Char) (tr r : List Char)
    (hws1 : ∀ c ∈ ws1, isWs c = true) (hws2 : ∀ c ∈ ws2, isWs c = true)
    (hd : d = '<' ∨ d = '"')
    (hh : ∀ c ∈ hname, c ≠ '\n' ∧ c ≠ '>' ∧ c ≠ '"')
    (hcl : cl = '>' ∨ cl = '"')
    (hH : ∀ c ∈ H, c ≠ '>' ∧ c ≠ '"') (hne : hname ≠ H) :
    matchRemoveAt H
        (ws1 ++ (includeKW ++ (ws2 ++ (d :: (hname ++ (cl :: (tr ++ ('\n' :: r))))))))
      = none := by
  have hdws : isWs d = false := by rcases hd with rfl | rfl <;> decide
  have e1 : (ws1 ++ (includeKW ++ (ws2 ++ (d :: (hname ++
        (cl :: (tr ++ ('\n' :: r)))))))).dropWhile isWs
      = includeKW ++ (ws2 ++ (d :: (hname ++ (cl :: (tr ++ ('\n' :: r)))))) := by
    rw [dropWhile_append_sat isWs ws1 _ hws1, dropWhile_kw]
  have e2 : (ws2 ++ (d :: (hname ++ (cl :: (tr ++ ('\n' :: r)))))).dropWhile isWs
      = d :: (hname ++ (cl :: (tr ++ ('\n' :: r)))) := by
    rw [dropWhile_append_sat isWs ws2 _ hws2, List.dropWhile_cons, hdws]
    simp
  rcases hch : chop H (hname ++ (cl :: (tr ++ ('\n' :: r)))) with _ | u
  · simp only [matchRemoveAt, e1, chop_append, e2, eq_true hd, if_true, hch]
  · obtain ⟨x, xs, rfl, hx1, hx2⟩ :=
      chop_ne_closer H hname cl (tr ++ ('\n' :: r)) u hH
        (fun c hc => (hh c hc).2) hcl hne hch
    have hxf : ¬ (x = '>' ∨ x = '"') := by rintro (h | h); exacts [hx1 h, hx2 h]
    simp only [matchRemoveAt, e1, chop_append, e2, eq_true hd, if_true, hch,
      eq_false hxf, if_false]

/-! ## Suffix and scan-step lemmas -/

theorem includeKW_length : includeKW.length = 8 := rfl

theorem matchIncludeAt_parts (s hn r : List Char)
    (h : matchIncludeAt s = some (hn, r)) :
    r <:+ s ∧ r.length + 2 ≤ s.length := by
  unfold matchIncludeAt at h
  rcases hc : chop includeKW (s.dropWhile isWs) with _ | s2
  · simp [hc] at h
  simp only [hc] at h
  rcases hdw : s2.dropWhile isWs with _ | ⟨d, s3⟩
  · simp [hdw] at h
  simp only [hdw] at h
  by_cases hdc : d = '<' ∨ d = '"'
  swap
  · simp [eq_false hdc] at h
  simp only [eq_true hdc, if_true] at h
  rcases s3 with _ | ⟨c0, s4⟩
  · simp at h
  by_cases hc0 : c0 = '\n'
  · simp [hc0] at h
  simp only [eq_false hc0, if_false] at h
  rcases grabHeader_suffix s4 [c0] hn r h with ⟨hsuf, hlen⟩
  have h1 : s.dropWhile isWs <:+ s := List.dropWhile_suffix isWs
  have h2 : s2 <:+ s.dropWhile isWs := chop_suffix includeKW _ s2 hc
  have h2l : s2.length + includeKW.length = (s.dropWhile isWs).length :=
    chop_length includeKW _ s2 hc
  have h3 : s2.dropWhile isWs <:+ s2 := List.dropWhile_suffix isWs
  have hsuffull : r <:+ s := by
    have hmid : r <:+ s2.dropWhile isWs := by
      rw [hdw]
      exact (hsuf.trans (List.suffix_cons c0 s4)).trans (List.suffix_cons d _)
    exact ((hmid.trans h3).trans h2).trans h1
  refine ⟨hsuffull, ?_⟩
  have l0 : (s2.dropWhile isWs).length = s4.length + 2 := by rw [hdw]; simp
  have l1 : (s2.dropWhile isWs).length ≤ s2.length := h3.length_le
  have l2 : (s.dropWhile isWs).length ≤ s.length := h1.length_le
  have l3 := includeKW_length
  omega

theorem matchRemoveAt_parts (H s r : List Char)
    (h : matchRemoveAt H s = some r) :
    r <:+ s ∧ r.length + 2 ≤ s.length := by
  unfold matchRemoveAt at h
  rcases hc : chop includeKW (s.dropWhile isWs) with _ | s2
  · simp [hc] at h
  simp only [hc] at h
  have h1 : s.dropWhile isWs <:+ s := List.dropWhile_suffix isWs
  have h2 : s2 <:+ s.dropWhile isWs := chop_suffix includeKW _ s2 hc
  have h2l : s2.length + includeKW.length = (s.dropWhile isWs).length :=
    chop_length includeKW _ s2 hc
  have l2 : (s.dropWhile isWs).length ≤ s.length := h1.length_le
  have l3 := includeKW_length
  rcases hdw : s2.dropWhile isWs with _ | ⟨d, s3⟩
  · simp [hdw] at h
  simp only [hdw] at h
  have h3 : s2.dropWhile isWs <:+ s2 := List.dropWhile_suffix isWs
  have l0 : (s2.dropWhile isWs).length = s3.length + 1 := by rw [hdw]; simp
  have l1 : (s2.dropWhile isWs).length ≤ s2.length := h3.length_le
  by_cases hdc : d = '<' ∨ d = '"'
  swap
  · simp [eq_false hdc] at h
  simp only [eq_true hdc, if_true] at h
  rcases hch : chop H s3 with _ | u
  · simp [hch] at h
  simp only [hch] at h
  rcases u with _ | ⟨cl, s5⟩
  · simp at h
  have h4 : cl :: s5 <:+ s3 := chop_suffix H s3 _ hch
  have l4 : s5.length + 1 ≤ s3.length := by simpa using h4.length_le
  by_cases hclc : cl = '>' ∨ cl = '"'
  swap
  · simp [eq_false hclc] at h
  simp only [eq_true hclc, if_true] at h
  rcases hdw5 : s5.dropWhile (fun c => c != '\n') with _ | ⟨x, s6⟩
  · simp only [hdw5, Option.some.injEq] at h
    subst h
    exact ⟨List.nil_suffix, by simp; omega⟩
  simp only [hdw5, Option.some.injEq] at h
  subst h
  have h5 : s5.dropWhile (fun c => c != '\n') <:+ s5 := List.dropWhile_suffix _
  have h6 : s6 <:+ s5.dropWhile (fun c => c != '\n') := by
    rw [hdw5]; exact List.suffix_cons x s6
  have l5 : (s5.dropWhile (fun c => c != '\n')).length ≤ s5.length := h5.length_le
  have l6 : (s5.dropWhile (fun c => c != '\n')).length = s6.length + 1 := by
    rw [hdw5]; simp
  have hr5 : s6 <:+ s5 := h6.trans h5
  have hr3 : s6 <:+ s3 := (hr5.trans (List.suffix_cons cl s5)).trans h4
  have hrdw : s6 <:+ s2.dropWhile isWs := by
    rw [hdw]; exact hr3.trans (List.suffix_cons d s3)
  exact ⟨((hrdw.trans h3).trans h2).trans h1, by omega⟩

theorem match_span (s r : List Char) (hsuf : r <:+ s)
    (hlen : r.length + 2 ≤ s.length) :
    ∃ c y sp, s = c :: y :: (sp ++ r) := by
  rcases hsuf with ⟨sp, rfl⟩
  rcases sp with _ | ⟨c, sp'⟩
  · simp at hlen
  rcases sp' with _ | ⟨y, sp''⟩
  · simp at hlen
  exact ⟨c, y, sp'', by simp⟩

theorem extractScanA_skip :
    ∀ (pre : List Char) (b : Bool) (c : Char) (s : List Char),
      extractScanA (pre.length + 1) b (c :: (pre ++ s)) = extractScanA 0 false s := by
  intro pre
  induction pre with
  | nil => intro b c s; rfl
  | cons p ps ih => intro b c s; exact ih false p s

theorem subScanA_skip (H : List Char) :
    ∀ (pre : List Char) (b : Bool) (c : Char) (s : List Char),
      subScanA H (pre.length + 1) b (c :: (pre ++ s)) = subScanA H 0 true s := by
  intro pre
  induction pre with
  | nil => intro b c s; rfl
  | cons p ps ih => intro b c s; exact ih true p s

theorem extractScanA_zero_match (c : Char) (rest hn r2 : List Char)
    (h : matchIncludeAt (c :: rest) = some (hn, r2)) :
    extractScanA 0 true (c :: rest)
      = hn :: extractScanA (rest.length - r2.length) false rest := by
  simp [extractScanA, h]

theorem extractScanA_zero_nomatch (c : Char) (rest : List Char)
    (h : matchIncludeAt (c :: rest) = none) :
    extractScanA 0 true (c :: rest) = extractScanA 0 (c == '\n') rest := by
  simp [extractScanA, h]

theorem extractScanA_zero_false (c : Char) (rest : List Char) :
    extractScanA 0 false (c :: rest) = extractScanA 0 (c == '\n') rest := by
  simp [extractScanA]

theorem subScanA_zero_match (H : List Char) (c : Char) (rest r2 : List Char)
    (h : matchRemoveAt H (c :: rest) = some r2) :
    subScanA H 0 true (c :: rest)
      = subScanA H (rest.length - r2.length) true rest := by
  simp [subScanA, h]

theorem subScanA_zero_nomatch (H : List Char) (c : Char) (rest : List Char)
    (h : matchRemoveAt H (c :: rest) = none) :
    subScanA H 0 true (c :: rest) = c :: subScanA H 0 (c == '\n') rest := by
  simp [subScanA, h]

theorem subScanA_zero_false (H : List Char) (c : Char) (rest : List Char) :
    subScanA H 0 false (c :: rest) = c :: subScanA H 0 (c == '\n') rest := by
  simp [subScanA]

theorem extractScanA_match_step (s hn r2 : List Char)
    (h : matchIncludeAt s = some (hn, r2)) :
    extractScanA 0 true s = hn :: extractScanA 0 false r2 := by
  rcases matchIncludeAt_parts s hn r2 h with ⟨hsuf, hlen⟩
  rcases match_span s r2 hsuf hlen with ⟨c, y, sp, rfl⟩
  rw [extractScanA_zero_match _ _ _ _ h]
  have hl : (y :: (sp ++ r2)).length - r2.length = sp.length + 1 := by simp; omega
  rw [hl]
  rw [show (y :: (sp ++ r2)) = y :: (sp ++ r2) from rfl]
  exact congrArg _ (extractScanA_skip sp false y r2)

theorem subScanA_match_step (H s r2 : List Char)
    (h : matchRemoveAt H s = some r2) :
    subScanA H 0 true s = subScanA H 0 true r2 := by
  rcases matchRemoveAt_parts H s r2 h with ⟨hsuf, hlen⟩
  rcases match_span s r2 hsuf hlen with ⟨c, y, sp, rfl⟩
  rw [subScanA_zero_match H _ _ _ h]
  have hl : (y :: (sp ++ r2)).length - r2.length = sp.length + 1 := by simp; omega
  rw [hl]
  exact subScanA_skip H sp true y r2

theorem extractScanA_false_line :
    ∀ (cs : List Char) (r : List Char), (∀ c ∈ cs, c ≠ '\n') →
      extractScanA 0 false (cs ++ '\n' :: r) = extractScanA 0 true r := by
  intro cs
  induction cs with
  | nil => intro r _; simp [extractScanA_zero_false]
  | cons c cs' ih =>
    intro r hnl
    rw [List.cons_append, extractScanA_zero_false,
        show (c == '\n') = false by simp [hnl c (List.mem_cons_self c cs')]]
    exact ih r (fun x hx => hnl x (List.mem_cons_of_mem c hx))

theorem subScanA_false_line (H : List Char) :
    ∀ (cs : List Char) (r : List Char), (∀ c ∈ cs, c ≠ '\n') →
      subScanA H 0 false (cs ++ '\n' :: r)
        = cs ++ '\n' :: subScanA H 0 true r := by
  intro cs
  induction cs with
  | nil => intro r _; simp [subScanA_zero_false]
  | cons c cs' ih =>
    intro r hnl
    rw [List.cons_append, subScanA_zero_false,
        show (c == '\n') = false by simp [hnl c (List.mem_cons_self c cs')],
        ih r (fun x hx => hnl x (List.mem_cons_of_mem c hx))]
    rfl

theorem extractScanA_line_nomatch (cs r : List Char) (hne : cs ≠ [])
    (hnl : ∀ c ∈ cs, c ≠ '\n')
    (hm : matchIncludeAt (cs ++ '\n' :: r) = none) :
    extractScanA 0 true (cs ++ '\n' :: r) = extractScanA 0 true r := by
  obtain ⟨c, cs', rfl⟩ := List.exists_cons_of_ne_nil hne
  rw [List.cons_append] at hm ⊢
  rw [extractScanA_zero_nomatch _ _ hm,
      show (c == '\n') = false by simp [hnl c (List.mem_cons_self c cs')]]
  exact extractScanA_false_line cs' r (fun x hx => hnl x (List.mem_cons_of_mem c hx))

theorem subScanA_line_nomatch (H cs r : List Char) (hne : cs ≠ [])
    (hnl : ∀ c ∈ cs, c ≠ '\n')
    (hm : matchRemoveAt H (cs ++ '\n' :: r) = none) :
    subScanA H 0 true (cs ++ '\n' :: r)
      = cs ++ '\n' :: subScanA H 0 true r := by
  obtain ⟨c, cs', rfl⟩ := List.exists_cons_of_ne_nil hne
  rw [List.cons_append] at hm ⊢
  rw [subScanA_zero_nomatch H _ _ hm,
      show (c == '\n') = false by simp [hnl c (List.mem_cons_self c cs')],
      subScanA_false_line H cs' r (fun x hx => hnl x (List.mem_cons_of_mem c hx))]
  rfl

/-! ## Line-level refinement of the two regex operations -/

theorem wfLine_plain_parts (cs : List Char) (h : wfLine (.plain cs) = true) :
    (∀ c ∈ cs, c ≠ '\n') ∧ cs.any (fun c => !isWs c) = true ∧
      includeKW.isPrefixOf (cs.dropWhile isWs) = false := by
  simp only [wfLine, Bool.and_eq_true, List.all_eq_true, bne_iff_ne,
    Bool.not_eq_true'] at h
  exact ⟨h.1.1, h.1.2, h.2⟩

theorem wfLine_directive_parts (ws1 ws2 : List Char) (d : Char) (hname : List Char)
    (cl : Char) (tr : List Char)
    (h : wfLine (.directive ws1 ws2 d hname cl tr) = true) :
    (∀ c ∈ ws1, isWs c = true ∧ c ≠ '\n') ∧
    (∀ c ∈ ws2, isWs c = true ∧ c ≠ '\n') ∧
    (d = '<' ∨ d = '"') ∧ hname ≠ [] ∧
    (∀ c ∈ hname, c ≠ '\n' ∧ c ≠ '>' ∧ c ≠ '"') ∧
    (cl = '>' ∨ cl = '"') ∧ (∀ c ∈ tr, c ≠ '\n') := by
  simp only [wfLine, Bool.and_eq_true, Bool.or_eq_true, List.all_eq_true,
    bne_iff_ne, beq_iff_eq, Bool.not_eq_true'] at h
  obtain ⟨⟨⟨⟨⟨⟨h1, h2⟩, h3⟩, h4⟩, h5⟩, h6⟩, h7⟩ := h
  refine ⟨h1, h2, h3, ?_, fun c hc => ⟨(h5 c hc).1.1, (h5 c hc).1.2, (h5 c hc).2⟩, h6, h7⟩
  intro hcs
  rw [hcs] at h4
  simp at h4

theorem directive_line_no_newline (ws1 ws2 : List Char) (d : Char)
    (hname : List Char) (cl : Char) (tr : List Char)
    (hws1 : ∀ c ∈ ws1, isWs c = true ∧ c ≠ '\n')
    (hws2 : ∀ c ∈ ws2, isWs c = true ∧ c ≠ '\n')
    (hd : d = '<' ∨ d = '"')
    (hh : ∀ c ∈ hname, c ≠ '\n' ∧ c ≠ '>' ∧ c ≠ '"')
    (hcl : cl = '>' ∨ cl = '"') (htr : ∀ c ∈ tr, c ≠ '\n') :
    ∀ c ∈ ws1 ++ (includeKW ++ (ws2 ++ (d :: (hname ++ (cl :: tr))))), c ≠ '\n' := by
  intro c hc hceq
  subst hceq
  simp only [List.mem_append, List.mem_cons] at hc
  rcases hc with h | h | h | h | h | h | h
  · exact (hws1 _ h).2 rfl
  · exact absurd h (by decide)
  · exact (hws2 _ h).2 rfl
  · rcases hd with rfl | rfl <;> cases h
  · exact (hh _ h).1 rfl
  · rcases hcl with rfl | rfl <;> cases h
  · exact htr _ h rfl

theorem directive_line_ne_nil (ws1 ws2 : List Char) (d : Char)
    (hname : List Char) (cl : Char) (tr : List Char) :
    ws1 ++ (includeKW ++ (ws2 ++ (d :: (hname ++ (cl :: tr))))) ≠ [] := by
  simp

/-- C9: `extract_includes` returns the header names of all include
directives of the file in first-to-last textual order, matching both the
angle-bracket and the double-quote delimiter form, recognizing a directive
at the start of a line allowing leading whitespace, and returning repeated
header names once per occurrence (no deduplication): on any file made of
well-formed lines it returns exactly the directive lines' headers in
order. -/
theorem extract_includes_renderLines (ls : List LineSpec)
    (hwf : ∀ l ∈ ls, wfLine l = true) :
    extract_includes (renderLines ls) = ls.filterMap headerOf := by
  induction ls with
  | nil => rfl
  | cons l ls' ih =>
    have hl := hwf l (List.mem_cons_self l ls')
    have hrest : ∀ x ∈ ls', wfLine x = true :=
      fun x hx => hwf x (List.mem_cons_of_mem l hx)
    have ihr := ih hrest
    unfold extract_includes at ihr ⊢
    cases l with
    | plain cs =>
      obtain ⟨hnl, hany, hpre⟩ := wfLine_plain_parts cs hl
      have hne : cs ≠ [] := by
        rcases List.any_eq_true.mp hany with ⟨x, hx, _⟩
        intro hcs
        rw [hcs] at hx
        cases hx
      have hr : renderLines (LineSpec.plain cs :: ls')
          = cs ++ '\n' :: renderLines ls' := by
        simp [renderLines, renderLine]
      rw [hr, extractScanA_line_nomatch cs (renderLines ls') hne hnl
        (matchIncludeAt_plain_none cs _ hany hpre), ihr]
      simp [headerOf]
    | directive ws1 ws2 d hname cl tr =>
      obtain ⟨hws1, hws2, hd, hne, hh, hcl, htr⟩ :=
        wfLine_directive_parts ws1 ws2 d hname cl tr hl
      have hm := matchIncludeAt_directive ws1 ws2 d hname cl tr (renderLines ls')
        (fun c hc => (hws1 c hc).1) (fun c hc => (hws2 c hc).1) hd hne hh hcl
      have hr : renderLines (LineSpec.directive ws1 ws2 d hname cl tr :: ls')
          = ws1 ++ (includeKW ++ (ws2 ++ (d :: (hname ++
              (cl :: (tr ++ ('\n' :: renderLines ls'))))))) := by
        simp [renderLines, renderLine]
      rw [hr, extractScanA_match_step _ _ _ hm,
        extractScanA_false_line tr _ htr, ihr]
      simp [headerOf]

/-- C8 (amended): for a header name free of closing-delimiter characters
(as every extracted header name is), and on files none of whose
non-directive lines is whitespace-only, `remove_include` deletes exactly
the include-directive lines whose header name textually equals the given
name — no partial or substring match, a no-op when the name does not occur
— and returns the resulting content.  (The amendment excludes
whitespace-only lines directly preceding a matched directive, which the
`re.sub` pattern's leading `\s*` additionally consumes, as the
counterexample shows.) -/
theorem remove_include_renderLines (H : List Char)
    (hH : ∀ c ∈ H, c ≠ '>' ∧ c ≠ '"')
    (ls : List LineSpec) (hwf : ∀ l ∈ ls, wfLine l = true) :
    remove_include H (renderLines ls)
      = renderLines (ls.filter (fun l => headerOf l != some H)) := by
  induction ls with
  | nil => rfl
  | cons l ls' ih =>
    have hl := hwf l (List.mem_cons_self l ls')
    have hrest : ∀ x ∈ ls', wfLine x = true :=
      fun x hx => hwf x (List.mem_cons_of_mem l hx)
    have ihr := ih hrest
    unfold remove_include at ihr ⊢
    cases l with
    | plain cs =>
      obtain ⟨hnl, hany, hpre⟩ := wfLine_plain_parts cs hl
      have hne : cs ≠ [] := by
        rcases List.any_eq_true.mp hany with ⟨x, hx, _⟩
        intro hcs
        rw [hcs] at hx
        cases hx
      have hr : renderLines (LineSpec.plain cs :: ls')
          = cs ++ '\n' :: renderLines ls' := by
        simp [renderLines, renderLine]
      rw [hr, subScanA_line_nomatch H cs (renderLines ls') hne hnl
        (matchRemoveAt_plain_none H cs _ hany hpre), ihr]
      simp [headerOf, renderLines, renderLine]
    | directive ws1 ws2 d hname cl tr =>
      obtain ⟨hws1, hws2, hd, hne, hh, hcl, htr⟩ :=
        wfLine_directive_parts ws1 ws2 d hname cl tr hl
      by_cases hhe : hname = H
      · subst hhe
        have hm := matchRemoveAt_directive_eq ws1 ws2 d hname cl tr
          (renderLines ls') (fun c hc => (hws1 c hc).1)
          (fun c hc => (hws2 c hc).1) hd hcl htr
        have hr : renderLines (LineSpec.directive ws1 ws2 d hname cl tr :: ls')
            = ws1 ++ (includeKW ++ (ws2 ++ (d :: (hname ++
                (cl :: (tr ++ ('\n' :: renderLines ls'))))))) := by
          simp [renderLines, renderLine]
        rw [hr, subScanA_match_step hname _ _ hm, ihr]
        simp [headerOf]
      · have hm0 := matchRemoveAt_directive_ne ws1 ws2 d hname H cl tr
          (renderLines ls') (fun c hc => (hws1 c hc).1)
          (fun c hc => (hws2 c hc).1) hd hh hcl hH hhe
        have hshape : (ws1 ++ (includeKW ++ (ws2 ++ (d :: (hname ++ (cl :: tr))))))
              ++ '\n' :: renderLines ls'
            = ws1 ++ (includeKW ++ (ws2 ++ (d :: (hname ++
                (cl :: (tr ++ ('\n' :: renderLines ls'))))))) := by
          simp
        rw [← hshape] at hm0
        have hr : renderLines (LineSpec.directive ws1 ws2 d hname cl tr :: ls')
            = (ws1 ++ (includeKW ++ (ws2 ++ (d :: (hname ++ (cl :: tr))))))
              ++ '\n' :: renderLines ls' := by
          simp [renderLines, renderLine]
        rw [hr, subScanA_line_nomatch H _ (renderLines ls')
          (directive_line_ne_nil ws1 ws2 d hname cl tr)
          (directive_line_no_newline ws1 ws2 d hname cl tr hws1 hws2 hd hh hcl htr)
          hm0, ihr]
        have hkeep : (headerOf (LineSpec.directive ws1 ws2 d hname cl tr)
            != some H) = true := by
          simp [headerOf, hhe]
        simp [List.filter_cons, hkeep, renderLines, renderLine]

/-- C8 counterexample: on a file whose first line is blank, removing the
`x.h` include also deletes the preceding blank line (the `\s*` of the
pattern, under MULTILINE, matches the newline), so the result differs from
the spec-side line deletion `removeIncludeSpec`, which deletes exactly the
matching directive line. -/
theorem remove_include_eats_blank_line :
    remove_include ("x.h".toList) fileBlankDir = "int y;\n".toList
    ∧ removeIncludeSpec ("x.h".toList) fileBlankDir = "\nint y;\n".toList
    ∧ remove_include ("x.h".toList) fileBlankDir
        ≠ removeIncludeSpec ("x.h".toList) fileBlankDir :=
  ⟨by decide, by decide, by decide⟩

/-- Witness for C9 at a concrete line list containing both delimiter
forms, leading whitespace, trailing text and a duplicated header name. -/
theorem extract_includes_renderLines_witness :
    (∀ l ∈ demoLines, wfLine l = true)
    ∧ extract_includes (renderLines demoLines) = demoLines.filterMap headerOf :=
  ⟨by decide, extract_includes_renderLines demoLines (by decide)⟩

/-- Witness for the amended C8 at a concrete header name and line list. -/
theorem remove_include_renderLines_witness :
    (∀ c ∈ "a.h".toList, c ≠ '>' ∧ c ≠ '"')
    ∧ (∀ l ∈ demoLines, wfLine l = true)
    ∧ remove_include ("a.h".toList) (renderLines demoLines)
      = renderLines (demoLines.filter fun l => headerOf l != some ("a.h".toList)) :=
  ⟨by decide, by decide,
   remove_include_renderLines ("a.h".toList) (by decide) demoLines (by decide)⟩
